import Mathlib

/-!
Verification of the interval-pairing / weight-map core (`pairing.py`, `weights.py`).

This file gives a shallow embedding of the two data structures and their
operations, translated statement by statement from the Python source, and
proves (or refutes) the specification claims about them.

Conventions of the embedding:
* Python integers are `Int`.
* Python `//` and `%` only ever occur here with a positive right operand
  (`2` or a positive period), where Python's floor division and modulus
  agree with Lean's `Int./` (Euclidean) and `Int.%`, so those are used.
* Python methods that mutate `self` become functions returning the new
  value (queries that fill a memo cache return `value × updated-object`).
* Python `None` / absent results become `Option`; raised exceptions become
  `Except` errors (`PyErr`).
-/

/-- The exceptions the embedded code can raise: `AttributeError` for a call
to a method the `Pairing` class does not define, and `TypeError` for an
operation on Python `None` (such as unpacking it, or comparing it with an
integer). -/
inductive PyErr where
  | attributeError
  | typeError
deriving Repr, DecidableEq

/-- A pairing between two subintervals `[a,b]` and `[c,d]` of `{1,…,N}`,
embedding the Python class `Pairing` of `pairing.py`.  The four endpoint
fields and the orientation flag mirror `_a`, `_b`, `_c`, `_d` and
`_preserving`; the four `…Cache` fields mirror the memo attributes
`_width`, `_translationDistance`, `_isIdentity` and `_periodicInterval`
(`none` = the Python cache value `None` = not yet computed).  The cached
periodic interval itself is an `Option` triple, `none` standing for the
Python empty tuple `()`. -/
structure Pairing where
  a : Int
  b : Int
  c : Int
  d : Int
  preserving : Bool
  wCache : Option Int
  tdCache : Option Int
  idCache : Option Bool
  piCache : Option (Option (Int × Int × Int))
deriving Repr, DecidableEq

namespace Pairing

/-- `Pairing._setPairing(a, c, width, preserving)`: sets the endpoints from
a range-start pair and a width, resets every cache, then fills the width
cache (the Python method mutates `self`; since it overwrites every field,
the embedding is a plain constructor). -/
def setPairing (a c width : Int) (preserving : Bool) : Pairing :=
  { a := a
    b := a + width - 1
    c := c
    d := c + width - 1
    preserving := preserving
    wCache := some width
    tdCache := none
    idCache := none
    piCache := none }

/-- `Pairing.__init__(a, c, width, preserving)`: swaps `a` and `c` if
necessary so that the stored domain start is at most the range start, then
delegates to `_setPairing`. -/
def mk' (a c width : Int) (preserving : Bool) : Pairing :=
  if a > c then setPairing c a width preserving
  else setPairing a c width preserving

/-- `Pairing.width()`: cached width query. -/
def width (p : Pairing) : Int × Pairing :=
  match p.wCache with
  | some w => (w, p)
  | none =>
      let w := p.b - p.a + 1
      (w, { p with wCache := some w })

/-- `Pairing.translationDistance()`: cached translation-distance query
(`c - a` when orientation-preserving, the sentinel `-1` otherwise). -/
def translationDistance (p : Pairing) : Int × Pairing :=
  match p.tdCache with
  | some t => (t, p)
  | none =>
      let t := if p.preserving then p.c - p.a else -1
      (t, { p with tdCache := some t })

/-- `Pairing.isIdentity()`: cached query for being a restriction of the
identity map. -/
def isIdentity (p : Pairing) : Bool × Pairing :=
  match p.idCache with
  | some i => (i, p)
  | none =>
      let i := p.preserving && p.a == p.c
      (i, { p with idCache := some i })

/-- `Pairing.periodicInterval()`: cached query for the periodic interval;
`none` is the Python empty tuple.  Note that the non-trivial branch reads
the (possibly cached) translation distance. -/
def periodicInterval (p : Pairing) : Option (Int × Int × Int) × Pairing :=
  match p.piCache with
  | some v => (v, p)
  | none =>
      if !p.preserving || p.c > p.b + 1 then
        (none, { p with piCache := some none })
      else
        let (period, p) := p.translationDistance
        if period = 0 then (none, { p with piCache := some none })
        else
          let v := some (p.a, p.d, period)
          (v, { p with piCache := some v })

/-- `Pairing.__eq__`: compares `a`, `c`, the (cached) width and the
orientation flag. -/
def eq (p q : Pairing) : Bool :=
  p.a == q.a && p.c == q.c && (p.width).1 == (q.width).1
    && p.preserving == q.preserving

/-- `Pairing._contractImpl(start, width)`: returns the pair of
shift-domain / shift-range instructions, or `none` when the contraction is
illegal. -/
def contractImpl (p : Pairing) (start width : Int) : Option (Bool × Bool) :=
  let e := start + width - 1
  if e < p.a then some (true, true)
  else if start > p.b ∧ e < p.c then some (false, true)
  else if start > p.d then some (false, false)
  else none

/-- `Pairing.contract(start, width)`: shifts the domain and/or range left
by `width` according to `_contractImpl`; returns whether the contraction
was legal.  Faithful to the source, this mutator does NOT reset the caches. -/
def contract (p : Pairing) (start width : Int) : Bool × Pairing :=
  match p.contractImpl start width with
  | none => (false, p)
  | some (shiftDom, shiftRan) =>
      let p := if shiftDom then { p with a := p.a - width, b := p.b - width } else p
      let p := if shiftRan then { p with c := p.c - width, d := p.d - width } else p
      (true, p)

/-- `Pairing._resetCache()`. -/
def resetCache (p : Pairing) : Pairing :=
  { p with wCache := none, tdCache := none, idCache := none, piCache := none }

/-- `Pairing.truncate(newBound)`. -/
def truncate (p : Pairing) (newBound : Int) : Bool × Pairing :=
  if newBound < p.c || newBound ≥ p.d then (false, p)
  else if p.preserving then
    (true, resetCache { p with b := p.b - (p.d - newBound), d := newBound })
  else if p.c ≤ p.b then (false, p)
  else
    (true, resetCache { p with a := p.a + p.d - newBound, d := newBound })

/-- `Pairing.trim()`: for an orientation-reversing pairing with
overlapping domain and range, shrinks both around their shared midpoint
(Python `//` on the positive value `a + d ∓ …` is `Int./` here). -/
def trim (p : Pairing) : Bool × Pairing :=
  if p.preserving || p.b < p.c then (false, p)
  else
    (true, resetCache { p with b := (p.a + p.d - 1) / 2, c := (p.a + p.d + 2) / 2 })

/-- `Pairing._setPeriodic(start, end, period)`: like `_setPairing`, the
Python method overwrites every field of `self`, so it embeds as a
constructor. -/
def setPeriodic (start end_ period : Int) : Pairing :=
  let c := start + period
  setPairing start c (end_ - c + 1) true

/-- `Pairing.mergeWith(other)`: periodic merger.  The two
`periodicInterval()` calls fill the respective caches, which is why the
updated `other` is also returned.  `math.gcd` on positive integers is
`Int.gcd`. -/
def mergeWith (p other : Pairing) : Bool × Pairing × Pairing :=
  let (myInterval, p) := p.periodicInterval
  match myInterval with
  | none => (false, p, other)
  | some (s₁, e₁, t₁) =>
      let (yourInterval, other) := other.periodicInterval
      match yourInterval with
      | none => (false, p, other)
      | some (s₂, e₂, t₂) =>
          let overlapWidth := min e₁ e₂ - max s₁ s₂ + 1
          if overlapWidth < t₁ + t₂ then (false, p, other)
          else (true, setPeriodic (min s₁ s₂) (max e₁ e₂) (Int.gcd t₁ t₂), other)

end Pairing

/-- `periodicPairing(start, end, period)` of `pairing.py`: the unique
periodic pairing with the given periodic interval, or `none` when the
period exceeds half the span. -/
def periodicPairing (start end_ period : Int) : Option Pairing :=
  if period > (end_ - start + 1) / 2 then none
  else some (Pairing.setPeriodic start end_ period)

/-- `_vectorSum(v, w)` of `weights.py`: componentwise sum.  The Python
comprehension indexes `w` along `range(len(v))`; under the documented
precondition `len(v) == len(w)` it agrees with `zipWith`. -/
def vectorSum (v w : List Int) : List Int := List.zipWith (· + ·) v w

/-- A map from `{1,…,N}` to weight vectors, embedding class `Weights` of
`weights.py`.  `weights` is the list `self._weights` of pairs
`(runEnd, vector)` — each entry records the LAST point of a maximal
constant-weight subinterval together with its vector — and `dim` is
`self._dim` (`none` = Python `None`, the dimension of an empty map). -/
structure Weights where
  weights : List (Int × List Int)
  dim : Option Nat
deriving Repr, DecidableEq

namespace Weights

/-- `Weights.isEmpty()`. -/
def isEmpty (w : Weights) : Bool := w.weights.isEmpty

/-- `Weights.intervalLength()`: `0` for an empty map, otherwise the end
point stored in the last run (`self._weights[-1][0]`). -/
def intervalLength (w : Weights) : Int :=
  match w.weights.getLast? with
  | none => 0
  | some r => r.1

/-- `Weights.countSubintervals()`. -/
def countSubintervals (w : Weights) : Nat := w.weights.length

/-- The `for` loop of `Weights._findSubinterval`: scan the runs from
position `i`, tracking the end of the previous run; falling off the end of
the list is Python's implicit `return None`. -/
def findAux (x : Int) : Int → Nat → List (Int × List Int) →
    Option (Nat × Int × Int × List Int)
  | _, _, [] => none
  | previousEnd, i, (currentEnd, currentWeight) :: rest =>
      if x ≤ currentEnd then some (i, previousEnd + 1, currentEnd, currentWeight)
      else findAux x currentEnd (i + 1) rest

/-- `Weights._findSubinterval(x, index)`: locate the run containing `x`,
scanning forward from `index`.  (For `index ≥ 1` Python reads
`self._weights[index-1]` directly; the `getD 0` default is only reachable
when the documented precondition `index ≤ count` is violated, and every
theorem below assumes that precondition.) -/
def findSubinterval (w : Weights) (x : Int) (index : Nat := 0) :
    Option (Nat × Int × Int × List Int) :=
  if w.weights.isEmpty then none
  else
    let previousEnd : Int :=
      if index = 0 then 0 else ((w.weights.get? (index - 1)).map Prod.fst).getD 0
    if x ≤ previousEnd then none
    else findAux x previousEnd index (w.weights.drop index)

/-- The `while` pop-loop of `Weights.setZero`: repeatedly delete the run
at the cursor while its end lies inside the zeroed interval (the Python
guard is `end >= self._weights[i][0]`). -/
def popCovered (e : Int) : List (Int × List Int) → List (Int × List Int)
  | [] => []
  | r :: rest => if r.1 ≤ e then popCovered e rest else r :: rest

/-- `Weights.setZero(start, width, index)`: set `[start, start+width-1]`
to the zero vector.  Returns the located run index (or `none`) and the new
map.  List surgery notes: all of Python's `insert`/`pop`/assignment happen
at cursor `i`, so the pop-loop is `take i ++ popCovered e (drop i)`; the
`i-1` accesses are guarded by `zeroBefore`, which forces `i ≥ 1`. -/
def setZero (w : Weights) (start width : Int) (index : Nat := 0) :
    Option Nat × Weights :=
  match w.findSubinterval start index with
  | none => (none, w)
  | some (i, p, _, assignedWeight) =>
      let foundIndex := i
      let zero : List Int := List.replicate (w.dim.getD 0) 0
      let e := start + width - 1
      let step1 : Bool × List (Int × List Int) × Nat :=
        if start = p then
          (decide (i > 0) && ((w.weights.get? (i - 1)).map Prod.snd == some zero),
            w.weights, i)
        else
          (assignedWeight == zero,
            w.weights.insertIdx i (start - 1, assignedWeight), i + 1)
      let zeroBefore := step1.1
      let i := step1.2.2
      let l := step1.2.1
      let l := l.take i ++ popCovered e (l.drop i)
      let l :=
        if (l.get? i).map Prod.snd = some zero then
          if zeroBefore then l.eraseIdx (i - 1) else l
        else
          if zeroBefore then l.set (i - 1) (e, zero) else l.insertIdx i (e, zero)
      (some foundIndex, { w with weights := l })

/-- The `while` add-loop of `Weights.addWeight`: add `wt` to every run
whose end lies inside the updated interval; returns the rewritten prefix
and the untouched remainder. -/
def addCovered (wt : List Int) (e : Int) :
    List (Int × List Int) → List (Int × List Int) × List (Int × List Int)
  | [] => ([], [])
  | r :: rest =>
      if r.1 ≤ e then
        let pr := addCovered wt e rest
        ((r.1, vectorSum r.2 wt) :: pr.1, pr.2)
      else ([], r :: rest)

/-- `Weights.addWeight(weight, start, width, index)`: add `weight`
pointwise on `[start, start+width-1]`.  (In the final merge step Python
only reads `previousWeight` when `i > 0`, since `end > 0 = previousEnd`
always holds at `i = 0`; the `getD` defaults are unreachable likewise.) -/
def addWeight (w : Weights) (weight : List Int) (start width : Int)
    (index : Nat := 0) : Option Nat × Weights :=
  match w.findSubinterval start index with
  | none => (none, w)
  | some (i, p, _, assignedWeight) =>
      let foundIndex := i
      if weight = List.replicate (w.dim.getD 0) 0 then (some foundIndex, w)
      else
        let e := start + width - 1
        let step1 : List (Int × List Int) × Nat :=
          if start = p then
            if i > 0 ∧ (w.weights.get? (i - 1)).map Prod.snd
                = some (vectorSum assignedWeight weight) then
              (w.weights.eraseIdx (i - 1), i - 1)
            else (w.weights, i)
          else (w.weights.insertIdx i (start - 1, assignedWeight), i + 1)
        let l := step1.1
        let i := step1.2
        let pr := addCovered weight e (l.drop i)
        let l := l.take i ++ pr.1 ++ pr.2
        let i := i + pr.1.length
        if i = l.length then (some foundIndex, { w with weights := l })
        else
          let currentWeight := ((l.get? i).map Prod.snd).getD []
          let previousEnd : Int :=
            if i = 0 then 0 else ((l.get? (i - 1)).map Prod.fst).getD 0
          let previousWeight := ((l.get? (i - 1)).map Prod.snd).getD []
          let l :=
            if e > previousEnd then l.insertIdx i (e, vectorSum currentWeight weight)
            else if previousWeight = currentWeight then l.eraseIdx (i - 1)
            else l
          (some foundIndex, { w with weights := l })

/-- `Weights.extend(width, weight)`: merge into the last run when its
vector equals `weight` (Python `self._weights[-1][0] += width`),
otherwise `self._weights.append([width, weight])` — note the appended
entry stores `width` itself in the run-end slot. -/
def extend (w : Weights) (width : Int) (weight : List Int) : Weights :=
  match w.weights.getLast? with
  | some r =>
      if r.2 = weight then
        { w with weights := w.weights.dropLast ++ [(r.1 + width, r.2)] }
      else { w with weights := w.weights ++ [(width, weight)] }
  | none => { w with weights := w.weights ++ [(width, weight)] }

/-- The loop body of `Weights.__init__` over the rows `(width, weight)` of
the initial data: accumulate the running total, merging a row into the
previous run when the vectors agree (the accumulator is kept reversed, so
Python's replace-last is a replace-head).  A wrong-length vector raises
`WeightDimensionError`. -/
def ofDataAux (dim : Nat) : List (Int × List Int) → Int → List Int →
    List (Int × List Int) → Except Unit (List (Int × List Int))
  | [], _, _, acc => .ok acc.reverse
  | (width, weight) :: rest, total, previousWeight, acc =>
      if weight.length ≠ dim then .error ()
      else
        let total := total + width
        if weight = previousWeight then
          ofDataAux dim rest total weight ((total, weight) :: acc.tail)
        else
          ofDataAux dim rest total weight ((total, weight) :: acc)

/-- `Weights.__init__(data)`: the first row fixes the dimension (its own
length check is then trivially true, matching the Python `i == 0` case).
`Weights.__init__()` with no data is `⟨[], none⟩`. -/
def ofData (data : List (Int × List Int)) : Except Unit Weights :=
  match data with
  | [] => .ok ⟨[], none⟩
  | (_, v₀) :: _ =>
      (ofDataAux v₀.length data 0 [] []).map (fun runs => ⟨runs, some v₀.length⟩)

/-- `Weights.transferBy(pairing)`, embedded exactly as written in
`weights.py`.  After the early returns and the trim, both the non-periodic
and the periodic branch first run `self._findSubinterval(start)` on
`start = pairing.rangeStart()` — unpacking a `None` result raises
`TypeError` — and then evaluate the loop guard
`while start <= pairing.rangeEnd()`, which raises `AttributeError`
because the `Pairing` class defines no method `rangeEnd`.  Everything
after the first guard evaluation is unreachable, so the embedding stops at
the raise; the outcome is returned together with the final states of the
map (never touched before the raise) and the pairing (trimmed, caches
filled). -/
def transferBy (w : Weights) (p : Pairing) :
    Except PyErr Unit × Weights × Pairing :=
  if w.isEmpty then (.ok (), w, p)
  else
    let (iden, p) := p.isIdentity
    if iden then (.ok (), w, p)
    else
      let (_, p) := p.trim
      let (pi, p) := p.periodicInterval
      match pi with
      | none =>
          match w.findSubinterval p.c 0 with
          | none => (.error .typeError, w, p)
          | some _ => (.error .attributeError, w, p)
      | some _ =>
          match w.findSubinterval p.c 0 with
          | none => (.error .typeError, w, p)
          | some _ => (.error .attributeError, w, p)

end Weights

/-- Modelled from the spec: `Pairing.rangeEnd()` is called by
`Weights.transferBy` and by the test suite (`testpairing.py`) but the
`Pairing` class does not define it.  Per the data model (§3: attributes
`rangeStart (c)`, `rangeEnd (d)`) it returns the end point `d` of the
range. -/
def Pairing.rangeEndM (p : Pairing) : Int := p.d

/-- Modelled from the spec: `Pairing.inverseImageStart(start, width)` is
called by `Weights.transferBy` and exercised by `_testInverseImageStart`
in `testpairing.py`, but the `Pairing` class does not define it.  Per the
spec (§4.2: the sub-run of the domain corresponding, under the pairing's
inverse mapping, to the sub-run `[start, start+width-1]` of the range) and
the expected values in the test suite: undefined (`none`) unless the
queried interval lies inside the range `[c,d]`; for an
orientation-preserving pairing the inverse image starts at
`a + (start - c)`, for a reversing one at `a + (d - (start+width-1))`. -/
def Pairing.inverseImageStartM (p : Pairing) (start width : Int) : Option Int :=
  let e := start + width - 1
  if p.c ≤ start ∧ e ≤ p.d then
    if p.preserving then some (p.a + (start - p.c))
    else some (p.a + (p.d - e))
  else none

namespace Weights

/-- The instruction-gathering `while` loop of the non-periodic branch of
`Weights.transferBy` (lines 497–513), run with the modelled
`rangeEnd` / `inverseImageStart`.  Arguments mirror the loop state: the
unvisited runs `self._weights[i+1:]`, `start`, the current (range-clipped
except on the first iteration) run end, and the current weight; an
instruction records `(weight, inverseStart, width)` with `inverseStart`
still an `Option` (Python stores the raw result of `inverseImageStart`).
An exhausted run list is the `IndexError` → `break` exit. -/
def gatherNonPeriodic (p : Pairing) :
    List (Int × List Int) → Int → Int → List Int →
    List (List Int × Option Int × Int) → List (List Int × Option Int × Int)
  | rest, start, end_, weight, acc =>
    if start ≤ p.rangeEndM then
      let width := end_ - start + 1
      let inverseStart := p.inverseImageStartM start width
      let acc := acc ++ [(weight, inverseStart, width)]
      match rest with
      | [] => acc
      | (e', w') :: rest' =>
          gatherNonPeriodic p rest' (end_ + 1)
            (if e' > p.rangeEndM then p.rangeEndM else e') w' acc
    else acc

/-- The instruction-gathering `while` loop of the periodic branch of
`Weights.transferBy` (lines 544–577), with the modelled `rangeEnd`.  Each
run contributes `(width // period)` full copies of its weight on
`[a, a+period-1]`, plus a phase-aligned remainder split at the window
boundary.  All starts are known integers, wrapped in `some` so that both
branches share one instruction type. -/
def gatherPeriodic (p : Pairing) (period aStart aMod : Int) :
    List (Int × List Int) → Int → Int → List Int →
    List (List Int × Option Int × Int) → List (List Int × Option Int × Int)
  | rest, start, end_, weight, acc =>
    if start ≤ p.rangeEndM then
      let width := end_ - start + 1
      let acc := acc ++ [(weight.map (fun x => (width / period) * x), some aStart, period)]
      let remainder := width % period
      let acc :=
        if remainder > 0 then
          let extraStart := (start - aMod) % period
          let extraEnd := (extraStart + remainder - 1) % period
          if extraStart ≤ extraEnd then
            acc ++ [(weight, some (aStart + extraStart), remainder)]
          else
            acc ++ [(weight, some aStart, extraEnd + 1),
              (weight, some (aStart + extraStart), period - extraStart)]
        else acc
      match rest with
      | [] => acc
      | (e', w') :: rest' =>
          gatherPeriodic p period aStart aMod rest' (end_ + 1)
            (if e' > p.rangeEndM then p.rangeEndM else e') w' acc
    else acc

/-- The final loop of `Weights.transferBy`: one `addWeight` call per
gathered instruction.  An instruction whose start is Python `None` (an
out-of-range `inverseImageStart`) raises `TypeError` inside
`_findSubinterval` when `None` is compared with an integer (the map is
non-empty at every use below). -/
def runInstructions : List (List Int × Option Int × Int) → Weights →
    Except PyErr Weights
  | [], w => .ok w
  | (_, none, _) :: _, _ => .error .typeError
  | (weight, some s, width) :: rest, w =>
      let r := w.addWeight weight s width 0
      runInstructions rest r.2

/-- `Weights.transferBy(pairing)` completed with the spec-modelled
`rangeEnd` / `inverseImageStart` (see `Pairing.rangeEndM`,
`Pairing.inverseImageStartM`); apart from those two calls the control
flow is exactly that of `weights.py`.  Note that the first run end
`end₀` handed to the gathering loop comes straight from
`_findSubinterval` and, unlike all later run ends, is NOT clipped to the
range of the pairing. -/
def transferByM (w : Weights) (p : Pairing) : Except PyErr (Weights × Pairing) :=
  if w.isEmpty then .ok (w, p)
  else
    let (iden, p) := p.isIdentity
    if iden then .ok (w, p)
    else
      let (_, p) := p.trim
      let (pi, p) := p.periodicInterval
      match pi with
      | none =>
          match w.findSubinterval p.c 0 with
          | none => .error .typeError
          | some (i, _, end₀, weight₀) =>
              let instrs := gatherNonPeriodic p (w.weights.drop (i + 1)) p.c end₀ weight₀ []
              let (pw, p) := p.width
              let r := w.setZero p.c pw 0
              (runInstructions instrs r.2).map (fun w => (w, p))
      | some (_, _, period) =>
          let aStart := p.a
          let aMod := aStart % period
          match w.findSubinterval p.c 0 with
          | none => .error .typeError
          | some (i, _, end₀, weight₀) =>
              let instrs := gatherPeriodic p period aStart aMod
                (w.weights.drop (i + 1)) p.c end₀ weight₀ []
              let (pw, p) := p.width
              let r := w.setZero p.c pw 0
              (runInstructions instrs r.2).map (fun w => (w, p))

end Weights

namespace Spec

/-- The derived quantities of a pairing recomputed fresh from the current
endpoints (what the spec calls the values a query must agree with): the
width `b - a + 1`. -/
def freshWidth (p : Pairing) : Int := p.b - p.a + 1

/-- Fresh translation distance: `c - a` when orientation-preserving, the
sentinel `-1` otherwise. -/
def freshTD (p : Pairing) : Int := if p.preserving then p.c - p.a else -1

/-- Fresh identity test: orientation-preserving with `a = c`. -/
def freshId (p : Pairing) : Bool := p.preserving && p.a == p.c

/-- Fresh periodic interval: defined only for an orientation-preserving
pairing whose domain and range are adjacent or overlapping (`c ≤ b + 1`)
with nonzero shift; then it is `(a, d, c - a)`. -/
def freshPI (p : Pairing) : Option (Int × Int × Int) :=
  if !p.preserving || p.c > p.b + 1 then none
  else if p.c - p.a = 0 then none
  else some (p.a, p.d, p.c - p.a)

/-- Every filled cache of `p` holds the value that a fresh recomputation
from the current endpoints would give. -/
def cacheOK (p : Pairing) : Prop :=
  (∀ x, p.wCache = some x → x = freshWidth p) ∧
  (∀ x, p.tdCache = some x → x = freshTD p) ∧
  (∀ x, p.idCache = some x → x = freshId p) ∧
  (∀ x, p.piCache = some x → x = freshPI p)

/-- The observable value of a pairing: endpoints and orientation (what
`__eq__`, `__repr__` and all geometric queries are computed from). -/
def sameEndpoints (p q : Pairing) : Prop :=
  p.a = q.a ∧ p.b = q.b ∧ p.c = q.c ∧ p.d = q.d ∧ p.preserving = q.preserving

/-- Structural well-formedness of the endpoints, as established by the
constructor with positive arguments: positive start, normalized `a ≤ c`,
equal domain and range widths, positive width. -/
def wfPairing (p : Pairing) : Prop :=
  1 ≤ p.a ∧ p.a ≤ p.c ∧ p.b - p.a = p.d - p.c ∧ p.a ≤ p.b

/-- Executable strict monotonicity of a list of integers (the spec's
"run end-points are strictly increasing"). -/
def strictlyIncreasing : List Int → Bool
  | [] => true
  | [_] => true
  | x :: y :: rest => x < y && strictlyIncreasing (y :: rest)

/-- The vector a run list assigns to a point: the vector of the first run
whose stored end is not below the point (for a well-formed run list this
is the defining semantics of the representation). -/
def pointVector : List (Int × List Int) → Int → List Int
  | [], _ => []
  | (e, v) :: rest, x => if x ≤ e then v else pointVector rest x

end Spec

/-- C3.  The claim — after any mutation the four cached derived quantities
agree with a fresh recomputation from the endpoints, in particular after a
successful `contract` whose removed block lies strictly between the
domain and the range — fails on the code: `contract` is the one mutator
that never calls `_resetCache`, so a translation distance cached before
the call survives it.  At the failing input, `Pairing(3,11,4,True)`
(domain `[3,6]`, range `[11,14]`) has `translationDistance() = 8` cached;
`contract(7,4)` legally removes `[7,10]` (strictly between domain and
range) and shifts only the range, after which `translationDistance()`
still answers the stale `8` while the fresh value `c - a` is `4`. -/
theorem contract_leaves_stale_translationDistance :
    (((Pairing.mk' 3 11 4 true).translationDistance).2.contract 7 4).1 = true ∧
    (((((Pairing.mk' 3 11 4 true).translationDistance).2.contract 7 4).2.translationDistance).1 = 8 ∧
      Spec.freshTD ((((Pairing.mk' 3 11 4 true).translationDistance).2.contract 7 4).2) = 4) ∧
    ((((Pairing.mk' 3 11 4 true).translationDistance).2.contract 7 4).2.translationDistance).1 ≠
      Spec.freshTD ((((Pairing.mk' 3 11 4 true).translationDistance).2.contract 7 4).2) := by
  decide

/-- C4.  The claim — `extend(width, weight)` grows `intervalLength()` by
exactly `width`, keeping all previously assigned vectors — fails on the
code: when the map is non-empty and the last run's vector differs from
`weight`, the `else` branch appends `[width, weight]`, storing the WIDTH
in the run-end slot instead of `intervalLength() + width`.  At the
failing input, the map `{1,…,3} → [1,2]` extended by `2` points of weight
`[0,0]` reports `intervalLength() = 2` instead of `5`. -/
theorem extend_breaks_intervalLength :
    (Weights.ofData [(3, [1, 2])]).toOption = some ⟨[(3, [1, 2])], some 2⟩ ∧
    (Weights.extend ⟨[(3, [1, 2])], some 2⟩ 2 [0, 0]).weights = [(3, [1, 2]), (2, [0, 0])] ∧
    (Weights.extend ⟨[(3, [1, 2])], some 2⟩ 2 [0, 0]).intervalLength = 2 ∧
    (⟨[(3, [1, 2])], some 2⟩ : Weights).intervalLength + 2 = 5 := by
  decide

/-- C5.  The claim — every map reachable through the constructor,
`setZero`, `addWeight`, `extend` and `transferBy` has strictly increasing
run end-points — fails on the code, through the same `extend` slip as C4:
extending the constructor-built map `{1,…,5}` (runs ending `3, 5`) by one
point of a fresh weight appends the run entry `(1, [3])`, so the stored
end-points become `3, 5, 1`, which are not strictly increasing. -/
theorem extend_breaks_run_monotonicity :
    (Weights.ofData [(3, [1]), (2, [2])]).toOption = some ⟨[(3, [1]), (5, [2])], some 1⟩ ∧
    (Weights.extend ⟨[(3, [1]), (5, [2])], some 1⟩ 1 [3]).weights.map Prod.fst = [3, 5, 1] ∧
    Spec.strictlyIncreasing
      ((Weights.extend ⟨[(3, [1]), (5, [2])], some 1⟩ 1 [3]).weights.map Prod.fst) = false := by
  decide

/-- C1.  The claim — for a pairing whose domain and range lie inside
`{1,…,intervalLength}`, `transferBy` preserves the sum of the vectors over
every orbit class of the pairing, and zeroes the range — fails on the
code.  (As written, `transferBy` cannot even complete, because it calls
the undefined `Pairing.rangeEnd` / `Pairing.inverseImageStart`; those two
methods are modelled from the spec as `rangeEndM` / `inverseImageStartM`,
and the claim is settled against that completion, `transferByM`.)  The
failing input: the map `{1,…,10} → [1]` (one run) and the periodic
pairing `Pairing(1,3,4,True)` (domain `[1,4]`, range `[3,6]`, periodic
interval `(1,6,2)`).  The run containing the range start `3` ends at
`10`, beyond the range end `6`, and the gathering loop does not clip this
first run, so it transfers `⌊8/2⌋ = 4` copies of the run's weight instead
of `⌊4/2⌋ = 2`.  The orbit class of the point `1` induced by the pairing
is `{1, 3, 5}` (the pairing shifts by the period `2` on `[1,6]`): its
weight sum is `3` before the call and `5` after, so weight is created. -/
theorem transferBy_breaks_orbit_conservation :
    (Weights.ofData [(10, [1])]).toOption = some ⟨[(10, [1])], some 1⟩ ∧
    ((Pairing.mk' 1 3 4 true).periodicInterval).1 = some (1, 6, 2) ∧
    (Weights.transferByM ⟨[(10, [1])], some 1⟩ (Pairing.mk' 1 3 4 true)).toOption.map
        (fun x => x.1.weights) = some [(2, [5]), (6, [0]), (10, [1])] ∧
    vectorSum (vectorSum (Spec.pointVector [(10, [1])] 1) (Spec.pointVector [(10, [1])] 3))
        (Spec.pointVector [(10, [1])] 5) = [3] ∧
    vectorSum (vectorSum (Spec.pointVector [(2, [5]), (6, [0]), (10, [1])] 1)
        (Spec.pointVector [(2, [5]), (6, [0]), (10, [1])] 3))
        (Spec.pointVector [(2, [5]), (6, [0]), (10, [1])] 5) = [5] := by
  decide

/-- C8.  `trim()` returns `False` and changes nothing when the pairing is
orientation-preserving or its domain and range are already disjoint
(`b < c`); otherwise it returns `True` and replaces `b` by
`⌊(a+d−1)/2⌋` and `c` by `⌊(a+d+2)/2⌋`, leaving `a` and `d` fixed, with
`b < c` holding afterwards; concretely `Pairing(2,4,5,Reversing)` trims
to `Pairing(2,6,3,Reversing)`, `Pairing(2,4,6,Reversing)` to
`Pairing(2,6,4,Reversing)`, and `Pairing(2,6,3,Reversing)` is reported
unchanged. -/
theorem trim_spec (p : Pairing) :
    ((p.trim).1 = true ↔ (p.preserving = false ∧ p.c ≤ p.b)) ∧
    ((p.trim).1 = false → (p.trim).2 = p) ∧
    ((p.trim).1 = true →
      (p.trim).2.a = p.a ∧ (p.trim).2.d = p.d ∧
      (p.trim).2.b = (p.a + p.d - 1) / 2 ∧ (p.trim).2.c = (p.a + p.d + 2) / 2 ∧
      (p.trim).2.b < (p.trim).2.c ∧ (p.trim).2.preserving = p.preserving) ∧
    (((Pairing.mk' 2 4 5 false).trim).1 = true ∧
      Pairing.eq ((Pairing.mk' 2 4 5 false).trim).2 (Pairing.mk' 2 6 3 false) = true) ∧
    (((Pairing.mk' 2 4 6 false).trim).1 = true ∧
      Pairing.eq ((Pairing.mk' 2 4 6 false).trim).2 (Pairing.mk' 2 6 4 false) = true) ∧
    (((Pairing.mk' 2 6 3 false).trim).1 = false ∧
      ((Pairing.mk' 2 6 3 false).trim).2 = Pairing.mk' 2 6 3 false) := by
  refine ⟨?_, ?_, ?_, by decide, by decide, by decide⟩ <;>
    cases hp : p.preserving <;> by_cases hbc : p.b < p.c <;>
      simp [Pairing.trim, Pairing.resetCache, hp, hbc] <;> omega

/-- Witness for C8 at `Pairing(2,4,5,Reversing)`. -/
theorem trim_spec_witness :
    (((Pairing.mk' 2 4 5 false).trim).1 = true ↔
      ((Pairing.mk' 2 4 5 false).preserving = false ∧
        (Pairing.mk' 2 4 5 false).c ≤ (Pairing.mk' 2 4 5 false).b)) ∧
    (((Pairing.mk' 2 4 5 false).trim).1 = false →
      ((Pairing.mk' 2 4 5 false).trim).2 = Pairing.mk' 2 4 5 false) ∧
    (((Pairing.mk' 2 4 5 false).trim).1 = true →
      ((Pairing.mk' 2 4 5 false).trim).2.a = (Pairing.mk' 2 4 5 false).a ∧
      ((Pairing.mk' 2 4 5 false).trim).2.d = (Pairing.mk' 2 4 5 false).d ∧
      ((Pairing.mk' 2 4 5 false).trim).2.b =
        ((Pairing.mk' 2 4 5 false).a + (Pairing.mk' 2 4 5 false).d - 1) / 2 ∧
      ((Pairing.mk' 2 4 5 false).trim).2.c =
        ((Pairing.mk' 2 4 5 false).a + (Pairing.mk' 2 4 5 false).d + 2) / 2 ∧
      ((Pairing.mk' 2 4 5 false).trim).2.b < ((Pairing.mk' 2 4 5 false).trim).2.c ∧
      ((Pairing.mk' 2 4 5 false).trim).2.preserving = (Pairing.mk' 2 4 5 false).preserving) ∧
    (((Pairing.mk' 2 4 5 false).trim).1 = true ∧
      Pairing.eq ((Pairing.mk' 2 4 5 false).trim).2 (Pairing.mk' 2 6 3 false) = true) ∧
    (((Pairing.mk' 2 4 6 false).trim).1 = true ∧
      Pairing.eq ((Pairing.mk' 2 4 6 false).trim).2 (Pairing.mk' 2 6 4 false) = true) ∧
    (((Pairing.mk' 2 6 3 false).trim).1 = false ∧
      ((Pairing.mk' 2 6 3 false).trim).2 = Pairing.mk' 2 6 3 false) :=
  trim_spec (Pairing.mk' 2 4 5 false)

/-- A pairing built by `_setPeriodic(s, e, t)` with `1 ≤ t` and
`2t ≤ e − s + 1` reports exactly the requested periodic interval. -/
theorem setPeriodic_periodicInterval (s e t : Int) (h1 : 1 ≤ t)
    (h2 : 2 * t ≤ e - s + 1) :
    ((Pairing.setPeriodic s e t).periodicInterval).1 = some (s, e, t) := by
  simp [Pairing.setPeriodic, Pairing.setPairing, Pairing.periodicInterval,
    Pairing.translationDistance]
  split_ifs <;> try omega
  all_goals simp_all <;> omega

/-- C6.  For positive `start < end` and positive `period`:
`periodicPairing(start, end, period)` returns `None` iff
`period > (end − start + 1) // 2`; otherwise it returns the
orientation-preserving pairing with domain start `start`, range start
`start + period` and width `end − start − period + 1`, whose
`periodicInterval()` is exactly `(start, end, period)`.  In particular
`periodicPairing(1,6,3)` equals `Pairing(1,4,3,Preserving)` with periodic
interval `(1,6,3)`, and `periodicPairing(6,12,4)` returns `None`. -/
theorem periodicPairing_spec (s e t : Int) (hs : 1 ≤ s) (hse : s < e) (ht : 1 ≤ t) :
    (periodicPairing s e t = none ↔ (e - s + 1) / 2 < t) ∧
    (t ≤ (e - s + 1) / 2 →
      (periodicPairing s e t).map Pairing.a = some s ∧
      (periodicPairing s e t).map Pairing.c = some (s + t) ∧
      (periodicPairing s e t).map (fun p => (p.width).1) = some (e - s - t + 1) ∧
      (periodicPairing s e t).map Pairing.preserving = some true ∧
      (periodicPairing s e t).map (fun p => (p.periodicInterval).1)
        = some (some (s, e, t))) ∧
    (periodicPairing 1 6 3).map (fun p => Pairing.eq p (Pairing.mk' 1 4 3 true))
      = some true ∧
    (periodicPairing 1 6 3).map (fun p => (p.periodicInterval).1)
      = some (some (1, 6, 3)) ∧
    periodicPairing 6 12 4 = none := by
  refine ⟨?_, ?_, by decide, by decide, by decide⟩
  · unfold periodicPairing
    split_ifs with h
    · simp; omega
    · simp; omega
  · intro hle
    unfold periodicPairing
    rw [if_neg (by omega)]
    refine ⟨?_, ?_, ?_, ?_, ?_⟩
    · simp [Pairing.setPeriodic, Pairing.setPairing]
    · simp [Pairing.setPeriodic, Pairing.setPairing]
    · simp [Pairing.setPeriodic, Pairing.setPairing, Pairing.width]; ring
    · simp [Pairing.setPeriodic, Pairing.setPairing]
    · simpa using setPeriodic_periodicInterval s e t ht (by omega)

/-- Witness for C6 at `(start, end, period) = (1, 6, 3)`. -/
theorem periodicPairing_spec_witness :
    (periodicPairing 1 6 3 = none ↔ ((6 : Int) - 1 + 1) / 2 < 3) ∧
    ((3 : Int) ≤ ((6 : Int) - 1 + 1) / 2 →
      (periodicPairing 1 6 3).map Pairing.a = some 1 ∧
      (periodicPairing 1 6 3).map Pairing.c = some (1 + 3) ∧
      (periodicPairing 1 6 3).map (fun p => (p.width).1) = some (6 - 1 - 3 + 1) ∧
      (periodicPairing 1 6 3).map Pairing.preserving = some true ∧
      (periodicPairing 1 6 3).map (fun p => (p.periodicInterval).1)
        = some (some (1, 6, 3))) ∧
    (periodicPairing 1 6 3).map (fun p => Pairing.eq p (Pairing.mk' 1 4 3 true))
      = some true ∧
    (periodicPairing 1 6 3).map (fun p => (p.periodicInterval).1)
      = some (some (1, 6, 3)) ∧
    periodicPairing 6 12 4 = none :=
  periodicPairing_spec 1 6 3 (by decide) (by decide) (by decide)

/-- C7.  For a pairing with domain `[a,b]` and range `[c,d]` (`a ≤ c`,
equal widths) and positive `start`, `width` with
`end = start + width − 1`: `contract(start, width)` succeeds iff
`[start,end]` is disjoint from both `[a,b]` and `[c,d]`; on success, a
block left of the domain shifts domain and range left by `width`, a block
strictly between domain and range shifts only the range, and a block
right of the range changes nothing; on failure the pairing is unchanged.
In particular `Pairing(7,3,2,Preserving).contract(1,2)` yields
`Pairing(1,5,2,Preserving)`, while `contract(4,2)` on that pairing fails
and leaves it unchanged. -/
theorem contract_spec (p : Pairing) (start width : Int)
    (hwf : Spec.wfPairing p) (hs : 1 ≤ start) (hw : 1 ≤ width) :
    ((p.contract start width).1 = true ↔
      ((start + width - 1 < p.a ∨ p.b < start) ∧
        (start + width - 1 < p.c ∨ p.d < start))) ∧
    (start + width - 1 < p.a →
      (p.contract start width).2.a = p.a - width ∧
      (p.contract start width).2.b = p.b - width ∧
      (p.contract start width).2.c = p.c - width ∧
      (p.contract start width).2.d = p.d - width ∧
      (p.contract start width).2.preserving = p.preserving) ∧
    (p.b < start ∧ start + width - 1 < p.c →
      (p.contract start width).2.a = p.a ∧
      (p.contract start width).2.b = p.b ∧
      (p.contract start width).2.c = p.c - width ∧
      (p.contract start width).2.d = p.d - width ∧
      (p.contract start width).2.preserving = p.preserving) ∧
    (p.d < start → (p.contract start width).2 = p) ∧
    ((p.contract start width).1 = false → (p.contract start width).2 = p) ∧
    (((Pairing.mk' 7 3 2 true).contract 1 2).1 = true ∧
      Pairing.eq ((Pairing.mk' 7 3 2 true).contract 1 2).2 (Pairing.mk' 1 5 2 true)
        = true) ∧
    (((Pairing.mk' 7 3 2 true).contract 4 2).1 = false ∧
      ((Pairing.mk' 7 3 2 true).contract 4 2).2 = Pairing.mk' 7 3 2 true) := by
  obtain ⟨h1, h2, h3, h4⟩ := hwf
  refine ⟨?_, ?_, ?_, ?_, ?_, by decide, by decide⟩ <;>
    simp only [Pairing.contract, Pairing.contractImpl] <;>
      split_ifs <;> simp_all <;> omega

/-- Witness for C7: `Pairing(7,3,2,Preserving)` (stored as domain `[3,4]`,
range `[7,8]`) with `contract(1,2)`. -/
theorem contract_spec_witness :
    Spec.wfPairing (Pairing.mk' 7 3 2 true) ∧
    ((((Pairing.mk' 7 3 2 true).contract 1 2).1 = true ↔
      (((1 : Int) + 2 - 1 < (Pairing.mk' 7 3 2 true).a ∨ (Pairing.mk' 7 3 2 true).b < 1) ∧
        ((1 : Int) + 2 - 1 < (Pairing.mk' 7 3 2 true).c ∨ (Pairing.mk' 7 3 2 true).d < 1))) ∧
      ((1 : Int) + 2 - 1 < (Pairing.mk' 7 3 2 true).a →
        ((Pairing.mk' 7 3 2 true).contract 1 2).2.a = (Pairing.mk' 7 3 2 true).a - 2 ∧
        ((Pairing.mk' 7 3 2 true).contract 1 2).2.b = (Pairing.mk' 7 3 2 true).b - 2 ∧
        ((Pairing.mk' 7 3 2 true).contract 1 2).2.c = (Pairing.mk' 7 3 2 true).c - 2 ∧
        ((Pairing.mk' 7 3 2 true).contract 1 2).2.d = (Pairing.mk' 7 3 2 true).d - 2 ∧
        ((Pairing.mk' 7 3 2 true).contract 1 2).2.preserving
          = (Pairing.mk' 7 3 2 true).preserving) ∧
      ((Pairing.mk' 7 3 2 true).b < 1 ∧ (1 : Int) + 2 - 1 < (Pairing.mk' 7 3 2 true).c →
        ((Pairing.mk' 7 3 2 true).contract 1 2).2.a = (Pairing.mk' 7 3 2 true).a ∧
        ((Pairing.mk' 7 3 2 true).contract 1 2).2.b = (Pairing.mk' 7 3 2 true).b ∧
        ((Pairing.mk' 7 3 2 true).contract 1 2).2.c = (Pairing.mk' 7 3 2 true).c - 2 ∧
        ((Pairing.mk' 7 3 2 true).contract 1 2).2.d = (Pairing.mk' 7 3 2 true).d - 2 ∧
        ((Pairing.mk' 7 3 2 true).contract 1 2).2.preserving
          = (Pairing.mk' 7 3 2 true).preserving) ∧
      ((Pairing.mk' 7 3 2 true).d < 1 →
        ((Pairing.mk' 7 3 2 true).contract 1 2).2 = Pairing.mk' 7 3 2 true) ∧
      (((Pairing.mk' 7 3 2 true).contract 1 2).1 = false →
        ((Pairing.mk' 7 3 2 true).contract 1 2).2 = Pairing.mk' 7 3 2 true) ∧
      (((Pairing.mk' 7 3 2 true).contract 1 2).1 = true ∧
        Pairing.eq ((Pairing.mk' 7 3 2 true).contract 1 2).2 (Pairing.mk' 1 5 2 true)
          = true) ∧
      (((Pairing.mk' 7 3 2 true).contract 4 2).1 = false ∧
        ((Pairing.mk' 7 3 2 true).contract 4 2).2 = Pairing.mk' 7 3 2 true)) :=
  ⟨⟨by decide, by decide, by decide, by decide⟩,
    contract_spec (Pairing.mk' 7 3 2 true) 1 2
      ⟨by decide, by decide, by decide, by decide⟩ (by decide) (by decide)⟩

namespace Spec

/-- The merge legality condition of the claim: both pairings have a
defined periodic interval and the intervals overlap by at least the sum
of the periods. -/
def mergeOK : Option (Int × Int × Int) → Option (Int × Int × Int) → Prop
  | some (s₁, e₁, t₁), some (s₂, e₂, t₂) => t₁ + t₂ ≤ min e₁ e₂ - max s₁ s₂ + 1
  | _, _ => False

/-- The merged periodic interval of the claim: the union of the two
intervals with the gcd of the periods. -/
def mergedPI : Option (Int × Int × Int) → Option (Int × Int × Int) →
    Option (Int × Int × Int)
  | some (s₁, e₁, t₁), some (s₂, e₂, t₂) =>
      some (min s₁ s₂, max e₁ e₂, (Int.gcd t₁ t₂ : Int))
  | _, _ => none

end Spec

/-- Under honest caches, the `periodicInterval()` query answers the fresh
value. -/
theorem periodicInterval_fst (p : Pairing) (h : Spec.cacheOK p) :
    (p.periodicInterval).1 = Spec.freshPI p := by
  obtain ⟨-, htd, -, hpi⟩ := h
  cases hc : p.piCache with
  | some v => simp [Pairing.periodicInterval, hc, hpi v hc]
  | none =>
      cases hct : p.tdCache with
      | some t =>
          have ht := htd t hct
          cases hp : p.preserving <;>
            simp [Pairing.periodicInterval, Pairing.translationDistance,
              Spec.freshPI, Spec.freshTD, hc, hct, hp] at ht ⊢ <;>
            split_ifs <;> simp_all <;> omega
      | none =>
          cases hp : p.preserving <;>
            simp [Pairing.periodicInterval, Pairing.translationDistance,
              Spec.freshPI, Spec.freshTD, hc, hct, hp] <;>
            split_ifs <;> simp_all <;> omega

/-- `periodicInterval()` only fills caches: the endpoints and orientation
of the returned pairing are those of the argument. -/
theorem periodicInterval_snd (p : Pairing) :
    Spec.sameEndpoints (p.periodicInterval).2 p := by
  cases hc : p.piCache with
  | some v => simp [Pairing.periodicInterval, hc, Spec.sameEndpoints]
  | none =>
      cases hct : p.tdCache <;>
        simp [Pairing.periodicInterval, Pairing.translationDistance, hc, hct,
          Spec.sameEndpoints] <;>
        split_ifs <;> simp



/-- What `Spec.freshPI p = some (s, e, t)` tells us about a well-formed
pairing: the triple is `(a, d, c − a)` with a positive period at most
half the span. -/
theorem freshPI_bounds (p : Pairing) (hwf : Spec.wfPairing p) {s e t : Int}
    (h : Spec.freshPI p = some (s, e, t)) :
    s = p.a ∧ e = p.d ∧ t = p.c - p.a ∧ 1 ≤ t ∧ 2 * t ≤ e - s + 1 := by
  obtain ⟨h1, h2, h3, h4⟩ := hwf
  unfold Spec.freshPI at h
  split_ifs at h with hx hy
  all_goals try exact Option.noConfusion h
  simp only [Option.some.injEq, Prod.mk.injEq] at h
  obtain ⟨rfl, rfl, rfl⟩ := h
  simp at hx
  exact ⟨rfl, rfl, rfl, by omega, by omega⟩

/-- `sameEndpoints` is reflexive. -/
theorem sameEndpoints_refl (p : Pairing) : Spec.sameEndpoints p p :=
  ⟨rfl, rfl, rfl, rfl, rfl⟩

/-- C9.  `mergeWith(other)` succeeds iff both pairings have a defined
periodic interval `(s₁,e₁,p₁)`, `(s₂,e₂,p₂)` and
`min(e₁,e₂) − max(s₁,s₂) + 1 ≥ p₁ + p₂`; on success the receiver becomes
the periodic pairing with periodic interval
`[min(s₁,s₂), max(e₁,e₂)]` and period `gcd(p₁,p₂)`; on failure the
receiver keeps its endpoints, and the other pairing's endpoints are never
modified (its `periodicInterval` cache may be filled — honestly — which
is the only Python-level mutation of `other`). -/
theorem mergeWith_spec (p q : Pairing) (hp : Spec.wfPairing p) (hq : Spec.wfPairing q)
    (hcp : Spec.cacheOK p) (hcq : Spec.cacheOK q) :
    ((p.mergeWith q).1 = true ↔ Spec.mergeOK (Spec.freshPI p) (Spec.freshPI q)) ∧
    ((p.mergeWith q).1 = true →
      (((p.mergeWith q).2.1).periodicInterval).1
        = Spec.mergedPI (Spec.freshPI p) (Spec.freshPI q)) ∧
    ((p.mergeWith q).1 = false → Spec.sameEndpoints (p.mergeWith q).2.1 p) ∧
    Spec.sameEndpoints (p.mergeWith q).2.2 q := by
  have hP1 := periodicInterval_fst p hcp
  have hP2 := periodicInterval_snd p
  have hQ1 := periodicInterval_fst q hcq
  have hQ2 := periodicInterval_snd q
  rcases hPp : p.periodicInterval with ⟨mi, p₁⟩
  rcases hQq : q.periodicInterval with ⟨yi, q₁⟩
  rw [hPp] at hP1 hP2
  rw [hQq] at hQ1 hQ2
  simp only at hP1 hP2 hQ1 hQ2
  cases mi with
  | none =>
      simp only [Pairing.mergeWith, hPp, ← hP1, Spec.mergeOK]
      exact ⟨by simp, by simp, fun _ => hP2, sameEndpoints_refl q⟩
  | some x =>
      obtain ⟨s₁, e₁, t₁⟩ := x
      cases yi with
      | none =>
          simp only [Pairing.mergeWith, hPp, hQq, ← hP1, ← hQ1, Spec.mergeOK]
          exact ⟨by simp, by simp, fun _ => hP2, hQ2⟩
      | some y =>
          obtain ⟨s₂, e₂, t₂⟩ := y
          by_cases hov : min e₁ e₂ - max s₁ s₂ + 1 < t₁ + t₂
          · simp only [Pairing.mergeWith, hPp, hQq, if_pos hov, ← hP1, ← hQ1,
              Spec.mergeOK]
            refine ⟨by simp; omega, by simp, fun _ => hP2, hQ2⟩
          · simp only [Pairing.mergeWith, hPp, hQq, if_neg hov]
            obtain ⟨hs₁, he₁, ht₁, hpos₁, hspan₁⟩ := freshPI_bounds p hp hP1.symm
            obtain ⟨hs₂, he₂, ht₂, hpos₂, hspan₂⟩ := freshPI_bounds q hq hQ1.symm
            have hgpos : (1 : Int) ≤ Int.gcd t₁ t₂ := by
              have := Int.gcd_pos_of_ne_zero_left t₂ (show t₁ ≠ 0 by omega)
              exact_mod_cast this
            have hgle : (Int.gcd t₁ t₂ : Int) ≤ t₁ :=
              Int.le_of_dvd (by omega) Int.gcd_dvd_left
            refine ⟨by simp [← hP1, ← hQ1, Spec.mergeOK]; omega, ?_, by simp, hQ2⟩
            intro _
            simp only [← hP1, ← hQ1, Spec.mergedPI]
            exact setPeriodic_periodicInterval (min s₁ s₂) (max e₁ e₂) (Int.gcd t₁ t₂)
              hgpos (by
                have hle : e₁ ≤ max e₁ e₂ := le_max_left _ _
                have hsle : min s₁ s₂ ≤ s₁ := min_le_left _ _
                omega)

/-- A pairing freshly built by `_setPairing` has honest caches (only the
width is cached, and it matches the stored endpoints). -/
theorem cacheOK_setPairing (a c width : Int) (pres : Bool) :
    Spec.cacheOK (Pairing.setPairing a c width pres) := by
  refine ⟨?_, ?_, ?_, ?_⟩ <;> intro x hx <;>
    simp [Pairing.setPairing] at hx <;>
    simp [Pairing.setPairing, Spec.freshWidth, hx] <;> omega

/-- A pairing built by the constructor has honest caches. -/
theorem cacheOK_mk' (a c width : Int) (pres : Bool) :
    Spec.cacheOK (Pairing.mk' a c width pres) := by
  unfold Pairing.mk'
  split_ifs <;> exact cacheOK_setPairing _ _ _ _

/-- Witness for C9: merging `periodicPairing(2,10,4)` with
`periodicPairing(5,13,2)` (overlap `6 ≥ 4 + 2`) into periodic interval
`(2,13)` with period `gcd(4,2) = 2`. -/
theorem mergeWith_spec_witness :
    (((Pairing.setPeriodic 2 10 4).mergeWith (Pairing.setPeriodic 5 13 2)).1 = true ↔
      Spec.mergeOK (Spec.freshPI (Pairing.setPeriodic 2 10 4))
        (Spec.freshPI (Pairing.setPeriodic 5 13 2))) ∧
    (((Pairing.setPeriodic 2 10 4).mergeWith (Pairing.setPeriodic 5 13 2)).1 = true →
      ((((Pairing.setPeriodic 2 10 4).mergeWith
          (Pairing.setPeriodic 5 13 2)).2.1).periodicInterval).1
        = Spec.mergedPI (Spec.freshPI (Pairing.setPeriodic 2 10 4))
            (Spec.freshPI (Pairing.setPeriodic 5 13 2))) ∧
    (((Pairing.setPeriodic 2 10 4).mergeWith (Pairing.setPeriodic 5 13 2)).1 = false →
      Spec.sameEndpoints
        ((Pairing.setPeriodic 2 10 4).mergeWith (Pairing.setPeriodic 5 13 2)).2.1
        (Pairing.setPeriodic 2 10 4)) ∧
    Spec.sameEndpoints
      ((Pairing.setPeriodic 2 10 4).mergeWith (Pairing.setPeriodic 5 13 2)).2.2
      (Pairing.setPeriodic 5 13 2) :=
  mergeWith_spec (Pairing.setPeriodic 2 10 4) (Pairing.setPeriodic 5 13 2)
    ⟨by decide, by decide, by decide, by decide⟩
    ⟨by decide, by decide, by decide, by decide⟩
    (cacheOK_setPairing 2 6 5 true) (cacheOK_setPairing 5 7 7 true)

/-- The scan loop of `_findSubinterval` falls off the end (Python's
implicit `return None`) exactly when every remaining run ends strictly
before the sought point. -/
theorem findAux_none_iff (x : Int) (pe : Int) (i : Nat)
    (suf : List (Int × List Int)) :
    Weights.findAux x pe i suf = none ↔ ∀ r ∈ suf, r.1 < x := by
  induction suf generalizing pe i with
  | nil => simp [Weights.findAux]
  | cons r rest ih =>
      obtain ⟨ce, cw⟩ := r
      by_cases hx : x ≤ ce
      · simp [Weights.findAux, hx]
      · simp [Weights.findAux, hx, ih]
        intro _
        omega

/-- What a successful scan reports: the returned index addresses the run
`(e, v)` inside the scanned suffix, the point lies inside it (`x ≤ e`),
and the reported subinterval start is one past the end of the preceding
run (the initial `previousEnd` when the first scanned run matches). -/
theorem findAux_some_spec (x : Int) (pe : Int) (i : Nat)
    (suf : List (Int × List Int)) {j : Nat} {s e : Int} {v : List Int}
    (h : Weights.findAux x pe i suf = some (j, s, e, v)) :
    ∃ k, j = i + k ∧ suf.get? k = some (e, v) ∧ x ≤ e ∧
      ((k = 0 ∧ s = pe + 1) ∨
        (0 < k ∧ ∃ e' v', suf.get? (k - 1) = some (e', v') ∧ e' < x ∧ s = e' + 1)) := by
  induction suf generalizing pe i with
  | nil => exact Option.noConfusion h
  | cons r rest ih =>
      obtain ⟨ce, cw⟩ := r
      by_cases hx : x ≤ ce
      · refine ⟨0, ?_⟩
        simp [Weights.findAux, hx] at h
        obtain ⟨rfl, rfl, rfl, rfl⟩ := h
        simp [hx]
      · simp only [Weights.findAux, if_neg hx] at h
        obtain ⟨k, rfl, hget, hxe, hdisj⟩ := ih ce (i + 1) h
        refine ⟨k + 1, by omega, by simpa using hget, hxe, Or.inr ⟨by omega, ?_⟩⟩
        rcases hdisj with ⟨rfl, rfl⟩ | ⟨hk, e', v', hget', he', rfl⟩
        · exact ⟨ce, cw, by simp, by omega, rfl⟩
        · refine ⟨e', v', ?_, he', rfl⟩
          have : k + 1 - 1 = (k - 1) + 1 := by omega
          rw [this]
          simpa using hget'

/-- `_findSubinterval` with its `let` unfolded (definitional). -/
theorem findSubinterval_eq (w : Weights) (x : Int) (index : Nat) :
    w.findSubinterval x index =
      if w.weights.isEmpty then none
      else if x ≤ (if index = 0 then 0
          else ((w.weights.get? (index - 1)).map Prod.fst).getD 0) then none
      else Weights.findAux x
        (if index = 0 then 0 else ((w.weights.get? (index - 1)).map Prod.fst).getD 0)
        index (w.weights.drop index) := rfl

/-- For a non-empty map, `intervalLength()` is the end stored in the last
run entry. -/
theorem intervalLength_eq_get? (w : Weights) (h : w.weights ≠ []) :
    (w.weights.get? (w.weights.length - 1)).map Prod.fst = some w.intervalLength := by
  unfold Weights.intervalLength
  cases hgl : w.weights.getLast? with
  | none => exact absurd (List.getLast?_eq_none.mp hgl) h
  | some r =>
      rw [List.getLast?_eq_getElem?] at hgl
      rw [List.get?_eq_getElem?, hgl]
      rfl

/-- A successful `_findSubinterval(x, index)` returns the index of a run
that contains `x`: `x` is at most the run's stored end, and strictly
greater than the end of the preceding run (`0` for the first run). -/
theorem findSubinterval_some_spec (w : Weights) (x : Int) (index : Nat)
    {j : Nat} {s e : Int} {v : List Int}
    (h : w.findSubinterval x index = some (j, s, e, v)) :
    w.weights.get? j = some (e, v) ∧ x ≤ e ∧
      (if j = 0 then (0 : Int)
       else ((w.weights.get? (j - 1)).map Prod.fst).getD 0) < x := by
  rw [findSubinterval_eq] at h
  by_cases hemp : w.weights.isEmpty
  · rw [if_pos hemp] at h; exact Option.noConfusion h
  rw [if_neg hemp] at h
  set pe : Int := if index = 0 then 0
    else ((w.weights.get? (index - 1)).map Prod.fst).getD 0 with hpe
  by_cases hle : x ≤ pe
  · rw [if_pos hle] at h; exact Option.noConfusion h
  rw [if_neg hle] at h
  obtain ⟨k, rfl, hget, hxe, hdisj⟩ := findAux_some_spec _ _ _ _ h
  have hgetl : w.weights.get? (index + k) = some (e, v) := by
    rw [List.get?_eq_getElem?] at hget ⊢
    rw [← List.getElem?_drop]
    exact hget
  refine ⟨hgetl, hxe, ?_⟩
  rcases hdisj with ⟨rfl, rfl⟩ | ⟨hk, e', v', hget', he', rfl⟩
  · simp only [Nat.add_zero]
    by_cases hi0 : index = 0
    · rw [if_pos hi0]
      rw [hi0] at hpe
      simp at hpe
      omega
    · rw [if_neg hi0]
      rw [if_neg hi0] at hpe
      rw [← hpe]
      omega
  · have hne : ¬ index + k = 0 := by omega
    rw [if_neg hne]
    have hstep : index + k - 1 = index + (k - 1) := by omega
    rw [hstep, List.get?_eq_getElem?, ← List.getElem?_drop,
      ← List.get?_eq_getElem?, hget']
    simpa using he'

/-- For `x` inside the map and `index ≤ count`:
`_findSubinterval(x, index)` fails exactly when the map is empty, or
`index > 0` and `x` is not strictly greater than the end-point of run
`index − 1` (the forward-resumption precondition). -/
theorem findSubinterval_none_iff (w : Weights) (x : Int) (index : Nat)
    (hx : 1 ≤ x) (hN : x ≤ w.intervalLength) (hidx : index ≤ w.weights.length) :
    w.findSubinterval x index = none ↔
      (w.weights = [] ∨ (0 < index ∧
        x ≤ ((w.weights.get? (index - 1)).map Prod.fst).getD 0)) := by
  rw [findSubinterval_eq]
  by_cases hemp : w.weights.isEmpty
  · simp [hemp, List.isEmpty_iff.mp hemp]
  have hne : w.weights ≠ [] := by simpa [List.isEmpty_iff] using hemp
  have hlen : 0 < w.weights.length := List.length_pos.mpr hne
  simp only [hemp, Bool.false_eq_true, if_false]
  set pe : Int := if index = 0 then 0
    else ((w.weights.get? (index - 1)).map Prod.fst).getD 0 with hpe
  by_cases hle : x ≤ pe
  · rw [if_pos hle]
    simp only [true_iff, eq_self_iff_true]
    have hi0 : ¬ index = 0 := by
      intro h0
      rw [h0] at hpe
      simp at hpe
      omega
    rw [if_neg hi0] at hpe
    exact Or.inr ⟨by omega, by rw [← hpe]; exact hle⟩
  · rw [if_neg hle]
    rw [findAux_none_iff]
    constructor
    · intro hall
      exfalso
      rcases Nat.lt_or_ge index w.weights.length with hlt | hge
      · obtain ⟨last, hlast⟩ : ∃ r, w.weights.get? (w.weights.length - 1) = some r := by
          rw [List.get?_eq_getElem?]
          have : w.weights.length - 1 < w.weights.length := by omega
          exact ⟨w.weights[w.weights.length - 1], List.getElem?_eq_some_iff.mpr ⟨this, rfl⟩⟩
        have hmem : last ∈ w.weights.drop index := by
          have : (w.weights.drop index).get? (w.weights.length - 1 - index) = some last := by
            rw [List.get?_eq_getElem?, List.getElem?_drop,
              ← List.get?_eq_getElem?]
            have harith : index + (w.weights.length - 1 - index) = w.weights.length - 1 := by
              omega
            rw [harith]
            exact hlast
          exact List.get?_mem this
        have hlt' := hall last hmem
        have : (w.weights.get? (w.weights.length - 1)).map Prod.fst
            = some w.intervalLength := intervalLength_eq_get? w hne
        rw [hlast] at this
        simp at this
        omega
      · have hieq : index = w.weights.length := by omega
        have hi0 : ¬ index = 0 := by omega
        rw [if_neg hi0] at hpe
        have : (w.weights.get? (index - 1)).map Prod.fst = some w.intervalLength := by
          rw [hieq]
          exact intervalLength_eq_get? w hne
        rw [this] at hpe
        simp at hpe
        omega
    · intro hrhs
      exfalso
      rcases hrhs with h0 | ⟨hipos, hxle⟩
      · exact hne h0
      · have hi0 : ¬ index = 0 := by omega
        rw [if_neg hi0] at hpe
        rw [← hpe] at hxle
        omega

namespace Spec

def findFails (w : Weights) (start : Int) (index : Nat) : Prop :=
  w.weights = [] ∨ (0 < index ∧
    start ≤ ((w.weights.get? (index - 1)).map Prod.fst).getD 0)

def located (l : List (Int × List Int)) (x : Int) : Option Nat → Prop
  | none => True
  | some j => ∃ e v, l.get? j = some (e, v) ∧ x ≤ e ∧
      (if j = 0 then (0 : Int) else ((l.get? (j - 1)).map Prod.fst).getD 0) < x

end Spec

/-- `setZero` returns exactly the index found by `_findSubinterval`. -/
theorem setZero_fst (w : Weights) (start width : Int) (index : Nat) :
    (w.setZero start width index).1
      = (w.findSubinterval start index).map (fun r => r.1) := by
  rcases h : w.findSubinterval start index with - | ⟨j, s, e, v⟩ <;>
    simp [Weights.setZero, h]

/-- `addWeight` returns exactly the index found by `_findSubinterval`
(also through the zero-weight early return). -/
theorem addWeight_fst (w : Weights) (weight : List Int) (start width : Int)
    (index : Nat) :
    (w.addWeight weight start width index).1
      = (w.findSubinterval start index).map (fun r => r.1) := by
  rcases h : w.findSubinterval start index with - | ⟨j, s, e, v⟩ <;>
    simp only [Weights.addWeight, h, Option.map] <;> split_ifs <;> rfl

/-- When `setZero` reports `None` it has not touched the map. -/
theorem setZero_none_unchanged (w : Weights) (start width : Int) (index : Nat)
    (h : (w.setZero start width index).1 = none) :
    (w.setZero start width index).2 = w := by
  rcases hf : w.findSubinterval start index with - | ⟨j, s, e, v⟩
  · simp [Weights.setZero, hf]
  · rw [setZero_fst, hf] at h
    exact Option.noConfusion h

/-- When `addWeight` reports `None` it has not touched the map. -/
theorem addWeight_none_unchanged (w : Weights) (weight : List Int)
    (start width : Int) (index : Nat)
    (h : (w.addWeight weight start width index).1 = none) :
    (w.addWeight weight start width index).2 = w := by
  rcases hf : w.findSubinterval start index with - | ⟨j, s, e, v⟩
  · simp [Weights.addWeight, hf]
  · rw [addWeight_fst, hf] at h
    exact Option.noConfusion h

/-- C10.  For every weight map and every `setZero(start, width, index)`
or `addWeight(weight, start, width, index)` with positive `start`,
`width`, `start + width − 1 ≤ intervalLength()` and
`index ≤ countSubintervals()`: the call returns `None` exactly when the
search fails (the map is empty, or `index > 0` and `start` is not
strictly greater than the end-point of run `index − 1`); whenever `None`
is returned the map is completely unchanged; otherwise both calls return
the index of the constant-weight run that contained `start` when the
call began (`Spec.located`), and the two operations agree on it. -/
theorem setZero_addWeight_search_spec (w : Weights) (weight : List Int)
    (start width : Int) (index : Nat)
    (hs : 1 ≤ start) (hw : 1 ≤ width)
    (hN : start + width - 1 ≤ w.intervalLength)
    (hidx : index ≤ w.weights.length) :
    ((w.setZero start width index).1 = none ↔ Spec.findFails w start index) ∧
    ((w.setZero start width index).1 = none → (w.setZero start width index).2 = w) ∧
    Spec.located w.weights start ((w.setZero start width index).1) ∧
    ((w.addWeight weight start width index).1 = none ↔ Spec.findFails w start index) ∧
    ((w.addWeight weight start width index).1 = none →
      (w.addWeight weight start width index).2 = w) ∧
    Spec.located w.weights start ((w.addWeight weight start width index).1) ∧
    (w.setZero start width index).1 = (w.addWeight weight start width index).1 := by
  have hiff := findSubinterval_none_iff w start index hs (by omega) hidx
  rcases hf : w.findSubinterval start index with - | ⟨j, s, e, v⟩
  · have h1 : (w.setZero start width index).1 = none := by
      rw [setZero_fst, hf]; rfl
    have h2 : (w.addWeight weight start width index).1 = none := by
      rw [addWeight_fst, hf]; rfl
    have hff : Spec.findFails w start index := hiff.mp (by rw [hf])
    refine ⟨?_, ?_, ?_, ?_, ?_, ?_, ?_⟩
    · rw [h1]; exact iff_of_true rfl hff
    · intro _; exact setZero_none_unchanged w start width index h1
    · rw [h1]; trivial
    · rw [h2]; exact iff_of_true rfl hff
    · intro _; exact addWeight_none_unchanged w weight start width index h2
    · rw [h2]; trivial
    · rw [h1, h2]
  · have h1 : (w.setZero start width index).1 = some j := by
      rw [setZero_fst, hf]; rfl
    have h2 : (w.addWeight weight start width index).1 = some j := by
      rw [addWeight_fst, hf]; rfl
    have hnff : ¬ Spec.findFails w start index := by
      intro hff
      have hnone : w.findSubinterval start index = none := hiff.mpr hff
      rw [hf] at hnone
      exact Option.noConfusion hnone
    have hloc := findSubinterval_some_spec w start index hf
    refine ⟨?_, ?_, ?_, ?_, ?_, ?_, ?_⟩
    · rw [h1]; exact iff_of_false (by simp) hnff
    · rw [h1]; intro hc; exact Option.noConfusion hc
    · rw [h1]; exact ⟨e, v, hloc⟩
    · rw [h2]; exact iff_of_false (by simp) hnff
    · rw [h2]; intro hc; exact Option.noConfusion hc
    · rw [h2]; exact ⟨e, v, hloc⟩
    · rw [h1, h2]

/-- Under honest caches, the `isIdentity()` query answers the fresh
value. -/
theorem isIdentity_fst (p : Pairing) (h : Spec.cacheOK p) :
    (p.isIdentity).1 = Spec.freshId p := by
  obtain ⟨-, -, hid, -⟩ := h
  cases hc : p.idCache with
  | some b => simp [Pairing.isIdentity, hc, hid b hc, Spec.freshId]
  | none => simp [Pairing.isIdentity, hc, Spec.freshId]

/-- `isIdentity()` only fills a cache: endpoints are untouched. -/
theorem isIdentity_snd (p : Pairing) : Spec.sameEndpoints (p.isIdentity).2 p := by
  cases hc : p.idCache <;> simp [Pairing.isIdentity, hc, Spec.sameEndpoints]

/-- `sameEndpoints` is transitive. -/
theorem sameEndpoints_trans {p q r : Pairing} (h1 : Spec.sameEndpoints p q)
    (h2 : Spec.sameEndpoints q r) : Spec.sameEndpoints p r := by
  obtain ⟨a1, b1, c1, d1, e1⟩ := h1
  obtain ⟨a2, b2, c2, d2, e2⟩ := h2
  exact ⟨a1.trans a2, b1.trans b2, c1.trans c2, d1.trans d2, e1.trans e2⟩

/-- `trim()` is determined by the endpoints: pairings with the same
endpoints report the same flag and end with the same endpoints. -/
theorem trim_congr (p q : Pairing) (h : Spec.sameEndpoints p q) :
    (p.trim).1 = (q.trim).1 ∧ Spec.sameEndpoints (p.trim).2 (q.trim).2 := by
  obtain ⟨ha, hb, hc, hd, hpres⟩ := h
  unfold Pairing.trim
  rw [ha, hb, hc, hd, hpres]
  split_ifs with hcond
  · exact ⟨rfl, ha, hb, hc, hd, hpres⟩
  · exact ⟨rfl, by simp [Pairing.resetCache, Spec.sameEndpoints, ha, hd]⟩

/-- Trimming a well-formed pairing keeps the range start positive. -/
theorem trim_c_pos (p : Pairing) (hwfp : Spec.wfPairing p) :
    1 ≤ ((p.trim).2).c := by
  obtain ⟨h1, h2, h3, h4⟩ := hwfp
  unfold Pairing.trim
  split_ifs with h
  · show 1 ≤ p.c
    omega
  · show 1 ≤ (p.a + p.d + 2) / 2
    omega

/-- In a run list with strictly increasing ends, every stored end is at
most the last one. -/
theorem mem_end_le_last (l : List (Int × List Int))
    (hs : List.Chain' (fun r r' => r.1 < r'.1) l)
    {last} (hl : l.getLast? = some last) : ∀ r ∈ l, r.1 ≤ last.1 := by
  induction l with
  | nil => intro r hr; cases hr
  | cons a rest ih =>
      intro r hr
      cases rest with
      | nil =>
          have h1 : r = a := by simpa using hr
          have h2 : a = last := by simpa using hl
          rw [h1, h2]
      | cons b rest' =>
          have hl' : (b :: rest').getLast? = some last := by
            simpa [List.getLast?_cons_cons] using hl
          have hs' := hs.tail
          rcases List.mem_cons.mp hr with rfl | hr'
          · have hab : r.1 < b.1 := (List.chain'_cons.mp hs).1
            have hble := ih hs' hl' b (List.mem_cons_self b rest')
            omega
          · exact ih hs' hl' r hr'

/-- For a non-empty map with strictly increasing run ends and a positive
point, the default search (`index = 0`) fails exactly when the point lies
beyond the interval length. -/
theorem findSubinterval_zero_none_iff (w : Weights) (x : Int) (hx : 1 ≤ x)
    (hne : w.weights ≠ [])
    (hsorted : List.Chain' (fun r r' => r.1 < r'.1) w.weights) :
    w.findSubinterval x 0 = none ↔ w.intervalLength < x := by
  rw [findSubinterval_eq]
  have hemp : w.weights.isEmpty = false := by
    simpa [List.isEmpty_iff] using hne
  have hgt : ¬ x ≤ (0 : Int) := by omega
  simp only [hemp, Bool.false_eq_true, if_false, List.drop_zero, reduceIte]
  rw [if_neg hgt, findAux_none_iff]
  obtain ⟨last, hlast⟩ : ∃ r, w.weights.getLast? = some r := by
    cases hgl : w.weights.getLast? with
    | none => exact absurd (List.getLast?_eq_none.mp hgl) hne
    | some r => exact ⟨r, rfl⟩
  have hN : w.intervalLength = last.1 := by
    unfold Weights.intervalLength
    rw [hlast]
  constructor
  · intro hall
    have hmem : last ∈ w.weights := by
      have h' := hlast
      rw [List.getLast?_eq_getElem?, ← List.get?_eq_getElem?] at h'
      exact List.get?_mem h'
    rw [hN]
    exact hall last hmem
  · intro hlt r hr
    have := mem_end_le_last w.weights hsorted hlast r hr
    omega

/-- C2.  For every non-empty weight map `w` (well-formed: strictly
increasing run ends) and every well-formed, honestly-cached pairing `p`
that is not a restriction of the identity, `w.transferBy(p)` never
completes normally: after trimming `p` it evaluates
`pairing.rangeEnd()` — undefined on the class, hence `AttributeError` —
unless `_findSubinterval(pairing.rangeStart())` has already returned
`None` (exactly when the post-trim range start lies beyond the map),
whose unpacking raises `TypeError` first.  The map's run list is left
unmodified, and the pairing's endpoints are exactly those of `p.trim()`
(only caches have additionally been filled). -/
theorem transferBy_always_raises (w : Weights) (p : Pairing)
    (hne : w.weights ≠ [])
    (hsorted : List.Chain' (fun r r' => r.1 < r'.1) w.weights)
    (hwfp : Spec.wfPairing p) (hcp : Spec.cacheOK p)
    (hid : p.preserving = false ∨ p.a ≠ p.c) :
    ((w.transferBy p).1 = Except.error PyErr.typeError ∨
      (w.transferBy p).1 = Except.error PyErr.attributeError) ∧
    ((w.transferBy p).1 = Except.error PyErr.typeError ↔
      w.intervalLength < ((p.trim).2).c) ∧
    (w.transferBy p).2.1 = w ∧
    Spec.sameEndpoints (w.transferBy p).2.2 (p.trim).2 := by
  have hie : w.isEmpty = false := by
    simpa [Weights.isEmpty, List.isEmpty_iff] using hne
  have hid1 : (p.isIdentity).1 = false := by
    rw [isIdentity_fst p hcp]
    rcases hid with h | h <;> simp [Spec.freshId, h]
  rcases hI : p.isIdentity with ⟨ib, p₁⟩
  rw [hI] at hid1
  simp only at hid1
  subst hid1
  have hep₁ : Spec.sameEndpoints p₁ p := by
    have h := isIdentity_snd p
    rw [hI] at h
    exact h
  rcases hT : p₁.trim with ⟨tb, p₂⟩
  have htrim := trim_congr p₁ p hep₁
  rw [hT] at htrim
  have hep₂ : Spec.sameEndpoints p₂ (p.trim).2 := htrim.2
  rcases hPI : p₂.periodicInterval with ⟨pi, p₃⟩
  have hep₃ : Spec.sameEndpoints p₃ (p.trim).2 := by
    have h := periodicInterval_snd p₂
    rw [hPI] at h
    exact sameEndpoints_trans h hep₂
  have hc3 : p₃.c = ((p.trim).2).c := hep₃.2.2.1
  have hcpos : 1 ≤ ((p.trim).2).c := trim_c_pos p hwfp
  have hiff := findSubinterval_zero_none_iff w p₃.c (by omega) hne hsorted
  cases pi with
  | none =>
      rcases hF : w.findSubinterval p₃.c 0 with - | d
      · have hTB : w.transferBy p = (.error .typeError, w, p₃) := by
          simp only [Weights.transferBy, hie, Bool.false_eq_true, if_false, hI,
            hT, hPI, hF]
        rw [hTB]
        exact ⟨Or.inl rfl, iff_of_true rfl (hc3 ▸ hiff.mp hF), rfl, hep₃⟩
      · have hTB : w.transferBy p = (.error .attributeError, w, p₃) := by
          simp only [Weights.transferBy, hie, Bool.false_eq_true, if_false, hI,
            hT, hPI, hF]
        rw [hTB]
        refine ⟨Or.inr rfl, iff_of_false (by simp) ?_, rfl, hep₃⟩
        intro hlt
        have hnone := hiff.mpr (by rw [hc3]; exact hlt)
        rw [hF] at hnone
        exact Option.noConfusion hnone
  | some d₀ =>
      rcases hF : w.findSubinterval p₃.c 0 with - | d
      · have hTB : w.transferBy p = (.error .typeError, w, p₃) := by
          simp only [Weights.transferBy, hie, Bool.false_eq_true, if_false, hI,
            hT, hPI, hF]
        rw [hTB]
        exact ⟨Or.inl rfl, iff_of_true rfl (hc3 ▸ hiff.mp hF), rfl, hep₃⟩
      · have hTB : w.transferBy p = (.error .attributeError, w, p₃) := by
          simp only [Weights.transferBy, hie, Bool.false_eq_true, if_false, hI,
            hT, hPI, hF]
        rw [hTB]
        refine ⟨Or.inr rfl, iff_of_false (by simp) ?_, rfl, hep₃⟩
        intro hlt
        have hnone := hiff.mpr (by rw [hc3]; exact hlt)
        rw [hF] at hnone
        exact Option.noConfusion hnone

/-- The five-run weight map used as test data by `testweights.py`
(`woutZeros`): runs ending `2, 5, 7, 10, 13`. -/
def wWit : Weights :=
  ⟨[(2, [1, 2, 3]), (5, [4, 5, 6]), (7, [3, 4, 5]), (10, [2, 3, 4]), (13, [1, 2, 3])],
    some 3⟩

/-- Witness for C10: `setZero(4, 3)` and `addWeight([1,1,1], 4, 3)` on the
five-run test map, searching from index `0`. -/
theorem setZero_addWeight_search_spec_witness :
    ((1 : Int) ≤ 4 ∧ (1 : Int) ≤ 3 ∧ (4 : Int) + 3 - 1 ≤ wWit.intervalLength ∧
      (0 : Nat) ≤ wWit.weights.length) ∧
    (((wWit.setZero 4 3 0).1 = none ↔ Spec.findFails wWit 4 0) ∧
      ((wWit.setZero 4 3 0).1 = none → (wWit.setZero 4 3 0).2 = wWit) ∧
      Spec.located wWit.weights 4 ((wWit.setZero 4 3 0).1) ∧
      ((wWit.addWeight [1, 1, 1] 4 3 0).1 = none ↔ Spec.findFails wWit 4 0) ∧
      ((wWit.addWeight [1, 1, 1] 4 3 0).1 = none →
        (wWit.addWeight [1, 1, 1] 4 3 0).2 = wWit) ∧
      Spec.located wWit.weights 4 ((wWit.addWeight [1, 1, 1] 4 3 0).1) ∧
      (wWit.setZero 4 3 0).1 = (wWit.addWeight [1, 1, 1] 4 3 0).1) :=
  ⟨⟨by decide, by decide, by decide, by decide⟩,
    setZero_addWeight_search_spec wWit [1, 1, 1] 4 3 0
      (by decide) (by decide) (by decide) (by decide)⟩

/-- Witness for C2: the five-run test map transferred by the non-identity
pairing `Pairing(2,10,7,Preserving)` (domain `[2,8]`, range `[10,16]`). -/
theorem transferBy_always_raises_witness :
    (wWit.weights ≠ [] ∧
      List.Chain' (fun r r' => r.1 < r'.1) wWit.weights ∧
      Spec.wfPairing (Pairing.mk' 2 10 7 true) ∧
      ((Pairing.mk' 2 10 7 true).preserving = false ∨
        (Pairing.mk' 2 10 7 true).a ≠ (Pairing.mk' 2 10 7 true).c)) ∧
    (((wWit.transferBy (Pairing.mk' 2 10 7 true)).1 = Except.error PyErr.typeError ∨
      (wWit.transferBy (Pairing.mk' 2 10 7 true)).1 = Except.error PyErr.attributeError) ∧
    ((wWit.transferBy (Pairing.mk' 2 10 7 true)).1 = Except.error PyErr.typeError ↔
      wWit.intervalLength < (((Pairing.mk' 2 10 7 true).trim).2).c) ∧
    (wWit.transferBy (Pairing.mk' 2 10 7 true)).2.1 = wWit ∧
    Spec.sameEndpoints (wWit.transferBy (Pairing.mk' 2 10 7 true)).2.2
      ((Pairing.mk' 2 10 7 true).trim).2) :=
  ⟨⟨by decide, by repeat constructor, ⟨by decide, by decide, by decide, by decide⟩,
      Or.inr (by decide)⟩,
    transferBy_always_raises wWit (Pairing.mk' 2 10 7 true)
      (by decide) (by repeat constructor)
      ⟨by decide, by decide, by decide, by decide⟩
      (cacheOK_mk' 2 10 7 true) (Or.inr (by decide))⟩
